import Mathlib

/- Verification development for the conversion core of
   concourse-jsonschema-generator (src/convert.rs).

   The Rust module is shallowly embedded below: the document tree, the
   `PropertyType` algebra, the peg type grammar (`lit_type_parser`), the
   markdown renderer (`text_to_markdown`, `clean_text`, `trim_codeblock`,
   `raw_text`) and the schema walker (`collect_schemas`,
   `collect_attributes`, `convert_prop`, `extend_child_properties`).

   Modelling conventions:
   - Rust panics (out-of-bounds argument indexing, parse failures) are
     modelled by `Option`: `none` is a fatal abort of the conversion.
   - `HashMap<String, Property>` is modelled as an association list with
     unique keys together with an overwriting insert (`mapInsert`); the
     iteration order of the Rust map is unobservable in the map contents,
     the model fixes the insertion order deterministically.
   - Recursion through the node tree is stratified by an explicit fuel
     parameter; every claim is evaluated with ample fuel.
   - Strings are treated as lists of characters (the inputs of interest
     are ASCII, where Rust byte indexing and char indexing agree). -/

/-! ## Basic character and string utilities -/

def isWhiteC (c : Char) : Bool :=
  c == ' ' || c == '\t' || c == '\n' || c == '\x0d'

/-- Model of Rust `str::trim`: drop whitespace from both ends. -/
def trimBoth (l : List Char) : List Char :=
  ((l.dropWhile isWhiteC).reverse.dropWhile isWhiteC).reverse

def trimStr (s : String) : String :=
  String.mk (trimBoth s.data)

/-- Model of Rust `str::split('\n')`: split at every newline, keeping
    empty pieces (including a trailing one). -/
def splitNl : List Char → List (List Char)
  | [] => [[]]
  | c :: cs =>
    match splitNl cs with
    | [] => [[]]
    | h :: t => if c = '\n' then [] :: h :: t else (c :: h) :: t

/-- Model of Rust `str::lines()`: like `splitNl` but a final empty piece
    (produced by a trailing newline, or by the empty string) is dropped. -/
def linesOf (l : List Char) : List (List Char) :=
  let p := splitNl l
  if p.getLast? = some [] then p.dropLast else p

/-- One left-to-right, non-overlapping replacement pass, as performed by
    Rust `str::replace`; the `Nat` argument is fuel (the input length
    suffices). -/
def replaceL (pat rep : List Char) : Nat → List Char → List Char
  | _, [] => []
  | 0, s => s
  | g+1, s =>
    if pat ≠ [] ∧ s.take pat.length = pat then
      rep ++ replaceL pat rep g (s.drop pat.length)
    else
      match s with
      | [] => []
      | c :: cs => c :: replaceL pat rep g cs

def replaceStr (s pat rep : String) : String :=
  String.mk (replaceL pat.data rep.data s.data.length s.data)

def joinNl (ls : List (List Char)) : List Char :=
  List.intercalate ['\n'] ls

/-! ## Data model (crate::lit::types and crate::schema::types) -/

inductive LitNode where
  | Text : String → LitNode
  | Fn : String → List (List LitNode) → LitNode
  | Comment : String → LitNode

inductive PropertyType where
  | Ref : String → PropertyType
  | ArrayOf : PropertyType → PropertyType
  | OneOf : List PropertyType → PropertyType
  | Dict : PropertyType
  | Constant : String → PropertyType

structure Property where
  required : Bool
  docs : String
  type_name : PropertyType
  list : Bool

structure Schema where
  schema_name : String
  properties : List (String × Property)
  is_group_member : Bool
  group_members : List String

/-! ## Association-list model of HashMap<String, Property> -/

/-- First-match lookup. -/
def lookupP (k : String) : List (String × Property) → Option Property
  | [] => none
  | (k', v) :: m => if k = k' then some v else lookupP k m

/-- Overwriting insert, as in `HashMap::insert` / `extend`: an existing
    binding of the key is replaced, otherwise the binding is appended. -/
def mapInsert (m : List (String × Property)) (k : String) (v : Property) :
    List (String × Property) :=
  if (m.map Prod.fst).contains k then
    m.map (fun p => if p.1 = k then (k, v) else p)
  else m ++ [(k, v)]

/-- Insert every binding of `entries` in order; later bindings win, and
    all of them win over `m` (the semantics of `HashMap::extend` and of
    `collect::<HashMap<_, _>>()`). -/
def insertAll (m : List (String × Property)) (entries : List (String × Property)) :
    List (String × Property) :=
  entries.foldl (fun acc kv => mapInsert acc kv.1 kv.2) m

/-! ## The peg grammar `lit_type_parser` (convert.rs lines 145-183)

    rust-peg semantics: ordered choice commits to the first alternative
    that succeeds, repetition `a ++ sep` is one-or-more with the
    separator-element pair backtracked as a unit, and the generated
    public parse function demands that the whole input be consumed. -/

def isKeyChar (c : Char) : Bool :=
  c.isAlpha || c.isDigit || c == '.' || c == '_'

/-- `rule _ = [' ' | '\n']*` -/
def wsDrop (s : List Char) : List Char :=
  s.dropWhile (fun c => c == ' ' || c == '\n')

def expectC (c : Char) : List Char → Option (List Char)
  | x :: r => if x == c then some r else none
  | [] => none

/-- `rule key_or_value_string()`: one or more alphanumeric/`.`/`_`. -/
def keyTok (s : List Char) : Option (List Char × List Char) :=
  match s.takeWhile isKeyChar with
  | [] => none
  | tok => some (tok, s.drop tok.length)

/-- `rule ref_type()`: a token; dotted names collapse to `Ref "string"`. -/
def refTypeP (s : List Char) : Option (PropertyType × List Char) :=
  (keyTok s).map (fun p =>
    (if p.1.contains '.' then PropertyType.Ref "string"
     else PropertyType.Ref (String.mk p.1), p.2))

/-- `rule constant_type()`: a backquoted token. -/
def constTypeP (s : List Char) : Option (PropertyType × List Char) := do
  let r1 ← expectC '\x60' s
  let (tok, r2) ← keyTok r1
  let r3 ← expectC '\x60' r2
  some (PropertyType.Constant (String.mk tok), r3)

/-- `rule dictionary_type()`: whitespace is skippable after the opening
    brace and around the colon, but not before the closing brace. -/
def dictTypeP (s : List Char) : Option (PropertyType × List Char) := do
  let r1 ← expectC '\x7b' s
  let (_, r3) ← keyTok (wsDrop r1)
  let r5 ← expectC ':' (wsDrop r3)
  let (_, r7) ← keyTok (wsDrop r5)
  let r8 ← expectC '\x7d' r7
  some (PropertyType.Dict, r8)

/-- `rule array_type()`, parameterised by the inner `lit_type` parser. -/
def arrayTypeP (inner : List Char → Option (PropertyType × List Char))
    (s : List Char) : Option (PropertyType × List Char) := do
  let r1 ← expectC '[' s
  let (t, r2) ← inner r1
  let r3 ← expectC ']' r2
  some (PropertyType.ArrayOf t, r3)

/-- `rule non_union_type()`: ordered choice array / dict / constant / ref. -/
def nonUnionP (inner : List Char → Option (PropertyType × List Char))
    (s : List Char) : Option (PropertyType × List Char) :=
  arrayTypeP inner s <|> dictTypeP s <|> constTypeP s <|> refTypeP s

/-- The `++ (_ "|" _)` repetition tail: greedily parse further
    separator-element pairs, backtracking a pair as a unit when it fails.
    Total; the `Nat` argument is fuel (the input length suffices). -/
def unionRestP (nu : List Char → Option (PropertyType × List Char)) :
    Nat → List Char → List PropertyType × List Char
  | 0, s => ([], s)
  | g+1, s =>
    match expectC '|' (wsDrop s) with
    | some s2 =>
      match nu (wsDrop s2) with
      | some (t, s3) =>
        let r := unionRestP nu g s3
        (t :: r.1, r.2)
      | none => ([], s)
    | none => ([], s)

/-- `rule union_type()`: one-or-more `non_union_type` separated by
    `_ "|" _`; a single element already succeeds, yielding a one-element
    `OneOf`. -/
def unionP (inner : List Char → Option (PropertyType × List Char))
    (s : List Char) : Option (PropertyType × List Char) :=
  match nonUnionP inner s with
  | some (t, r) =>
    let rest := unionRestP (nonUnionP inner) (r.length + 1) r
    some (PropertyType.OneOf (t :: rest.1), rest.2)
  | none => none

/-- `pub rule lit_type() = union_type() / non_union_type()`; the fuel
    bounds the bracket-nesting depth. -/
def litTypeF : Nat → List Char → Option (PropertyType × List Char)
  | 0 => fun _ => none
  | f+1 => fun s =>
    match unionP (litTypeF f) s with
    | some r => some r
    | none => nonUnionP (litTypeF f) s

/-- `fn parse_type` (convert.rs lines 185-194): run the grammar over the
    whole string; a parse failure or unconsumed input is a panic,
    modelled as `none`. -/
def parseType (s : String) : Option PropertyType :=
  match litTypeF (s.data.length + 1) s.data with
  | some (t, []) => some t
  | _ => none

/-! ## clean_text (convert.rs lines 264-271)

    Each line is trimmed and re-padded with one leading and one trailing
    space; the subsequent check `if t == ""` is performed on the padded
    line, exactly as in the source. -/

def padLine (l : List Char) : List Char :=
  ' ' :: (trimBoth l ++ [' '])

def cleanText (s : String) : String :=
  String.mk
    ((((linesOf s.data).map padLine).map
      (fun l => if l = [] then ['\n', '\n'] else l)).flatten)

/-! ## trim_codeblock (convert.rs lines 273-297) -/

/-- Model of `chars().position(|c| c != ' ')`. -/
def firstNonSpacePos : List Char → Option Nat
  | [] => none
  | c :: cs => if c = ' ' then (firstNonSpacePos cs).map (· + 1) else some 0

def minNat? : List Nat → Option Nat
  | [] => none
  | x :: xs =>
    match minNat? xs with
    | none => some x
    | some m => some (Nat.min x m)

/-- The minimum indentation computed by `trim_codeblock`: over the
    non-empty lines, the position of the first non-space character,
    lines made of spaces only contributing nothing. -/
def trimStartCount (l : List Char) : Nat :=
  (minNat? (((linesOf l).filter (fun x => !x.isEmpty)).filterMap firstNonSpacePos)).getD 0

def fourSpaces : List Char := [' ', ' ', ' ', ' ']

def codeLineF (cnt : Nat) (l : List Char) : List Char :=
  if cnt < l.length then l.drop cnt else trimBoth l

def trimCodeblockL (l : List Char) : List Char :=
  let cnt := trimStartCount l
  joinNl ((splitNl l).map (fun x => fourSpaces ++ codeLineF cnt x))

def trimCodeblock (s : String) : String :=
  String.mk (trimCodeblockL s.data)

/-! Reference renderings of the specified `trim_codeblock` pipeline, used
    to compare the specified behaviour with the implemented one.
    `specTrimCodeblock` follows the specified wording literally: the
    minimum is taken of the leading-space count of every non-empty line,
    and a line at least as long as the minimum is stripped.
    `amendedTrimCodeblock` replaces the minimum by the one the code
    computes: only lines containing a non-space character contribute. -/

def leadingSpaces (l : List Char) : Nat :=
  (l.takeWhile (fun c => c == ' ')).length

def specTrimCount (l : List Char) : Nat :=
  (minNat? (((splitNl l).filter (fun x => !x.isEmpty)).map leadingSpaces)).getD 0

def specLineF (cnt : Nat) (l : List Char) : List Char :=
  if cnt ≤ l.length then l.drop cnt else trimBoth l

def specTrimCodeblock (s : String) : String :=
  String.mk
    (joinNl ((splitNl s.data).map
      (fun x => fourSpaces ++ specLineF (specTrimCount s.data) x)))

def amendedTrimCount (l : List Char) : Nat :=
  (minNat? (((splitNl l).filter (fun x => x.any (fun c => c != ' '))).map leadingSpaces)).getD 0

def amendedTrimCodeblock (s : String) : String :=
  String.mk
    (joinNl ((splitNl s.data).map
      (fun x => fourSpaces ++ specLineF (amendedTrimCount s.data) x)))

/-! ## Schema-name sanitization (convert.rs lines 36-43) -/

/-- The pipeline applied to the trimmed rendered name: backtick, hyphen
    and space each become an underscore, then one single replacement pass
    collapses `__` to `_`, then leading underscores are stripped. -/
def sanitize (s : String) : String :=
  let s1 := replaceStr s "\x60" "_"
  let s2 := replaceStr s1 "-" "_"
  let s3 := replaceStr s2 " " "_"
  let s4 := replaceStr s3 "__" "_"
  String.mk (s4.data.dropWhile (fun c => c == '_'))

/-! ## Traversal combinator -/

/-- Map a fallible function over a list, failing as soon as one element
    fails (the `Option` analogue of the flat-map loops in the source). -/
def optList {α β : Type} (g : α → Option β) : List α → Option (List β)
  | [] => some []
  | a :: as =>
    match g a, optList g as with
    | some b, some bs => some (b :: bs)
    | _, _ => none

/-! ## raw_text (convert.rs lines 299-308) -/

def rawTextListF : Nat → List LitNode → Option String
  | 0 => fun _ => none
  | f+1 => fun ns =>
    (optList (fun n =>
      match n with
      | .Text t => some t
      | .Comment _ => some ""
      | .Fn _ args => (optList (fun a => rawTextListF f a) args).map String.join) ns).map String.join

/-! ## text_to_markdown (convert.rs lines 196-262)

    `renderNodeF` renders one node; `ttmWith` is the body of
    `text_to_markdown` for a given node renderer: concatenate the
    per-node renderings, then replace the escapes `\x7b`/`\x7d` over the
    concatenation.  Because the source calls `text_to_markdown`
    recursively, the escape replacement happens inside every recursive
    invocation, which the model reproduces. -/

def replaceEsc (s : String) : String :=
  replaceStr (replaceStr s "\\\x7b" "\x7b") "\\\x7d" "\x7d"

def ttmWith (rn : LitNode → Option String) (nodes : List LitNode) : Option String :=
  (optList rn nodes).map (fun parts => replaceEsc (String.join parts))

/-- Dispatch on the function-call name, exactly as in the source match:
    missing arguments that the source indexes are a panic (`none`);
    a `reference` call of unsupported arity renders as `""`. -/
def renderFnWith (rn : LitNode → Option String) (rt : List LitNode → Option String)
    (name : String) (args : List (List LitNode)) : Option String :=
  match name, args with
  | "example-toggle", a0 :: a1 :: _ => do
    let r0 ← ttmWith rn a0
    let r1 ← ttmWith rn a1
    some ("\n@example " ++ r0 ++ "\n" ++ r1)
  | "example-toggle", _ => none
  | "reference", [a0] =>
    (ttmWith rn a0).map (fun t => "[" ++ t ++ "](#" ++ t ++ ")")
  | "reference", [a0, a1] => do
    let tgt ← ttmWith rn a0
    let txt ← ttmWith rn a1
    some ("[" ++ txt ++ "](#" ++ tgt ++ ")")
  | "reference", _ => some ""
  | "codeblock", _ :: a1 :: _ =>
    (rt a1).map (fun t => "\n\n" ++ trimCodeblock t ++ "\n\n")
  | "codeblock", _ => none
  | "code", a0 :: _ => (rt a0).map (fun t => "\x60" ++ t ++ "\x60")
  | "code", _ => none
  | "bold", a0 :: _ => (ttmWith rn a0).map (fun t => "**" ++ t ++ "**")
  | "bold", _ => none
  | "warn", a0 :: _ => ttmWith rn a0
  | "warn", _ => none
  | _, _ => (optList (fun a => ttmWith rn a) args).map String.join

def renderNodeF : Nat → LitNode → Option String
  | 0 => fun n =>
    match n with
    | .Text t => some (cleanText t)
    | .Comment _ => some ""
    | .Fn _ _ => none
  | f+1 => fun n =>
    match n with
    | .Text t => some (cleanText t)
    | .Comment _ => some ""
    | .Fn name args => renderFnWith (renderNodeF f) (rawTextListF f) name args

/-- `pub fn text_to_markdown`, at recursion fuel `f`. -/
def textToMarkdown (f : Nat) (nodes : List LitNode) : Option String :=
  ttmWith (renderNodeF f) nodes

/-! Reference rendering following the specified reading of the renderer:
    the recursive concatenation is built with no escape replacement at
    all (`ttmNoRepWith`), and `specTtm` applies one single replacement
    pass over the final concatenation. -/

def ttmNoRepWith (rn : LitNode → Option String) (nodes : List LitNode) : Option String :=
  (optList rn nodes).map String.join

def specRenderFnWith (rn : LitNode → Option String) (rt : List LitNode → Option String)
    (name : String) (args : List (List LitNode)) : Option String :=
  match name, args with
  | "example-toggle", a0 :: a1 :: _ => do
    let r0 ← ttmNoRepWith rn a0
    let r1 ← ttmNoRepWith rn a1
    some ("\n@example " ++ r0 ++ "\n" ++ r1)
  | "example-toggle", _ => none
  | "reference", [a0] =>
    (ttmNoRepWith rn a0).map (fun t => "[" ++ t ++ "](#" ++ t ++ ")")
  | "reference", [a0, a1] => do
    let tgt ← ttmNoRepWith rn a0
    let txt ← ttmNoRepWith rn a1
    some ("[" ++ txt ++ "](#" ++ tgt ++ ")")
  | "reference", _ => some ""
  | "codeblock", _ :: a1 :: _ =>
    (rt a1).map (fun t => "\n\n" ++ trimCodeblock t ++ "\n\n")
  | "codeblock", _ => none
  | "code", a0 :: _ => (rt a0).map (fun t => "\x60" ++ t ++ "\x60")
  | "code", _ => none
  | "bold", a0 :: _ => (ttmNoRepWith rn a0).map (fun t => "**" ++ t ++ "**")
  | "bold", _ => none
  | "warn", a0 :: _ => ttmNoRepWith rn a0
  | "warn", _ => none
  | _, _ => (optList (fun a => ttmNoRepWith rn a) args).map String.join

def specRenderNodeF : Nat → LitNode → Option String
  | 0 => fun n =>
    match n with
    | .Text t => some (cleanText t)
    | .Comment _ => some ""
    | .Fn _ _ => none
  | f+1 => fun n =>
    match n with
    | .Text t => some (cleanText t)
    | .Comment _ => some ""
    | .Fn name args => specRenderFnWith (specRenderNodeF f) (rawTextListF f) name args

/-- The rendering the specification describes: the unreplaced recursive
    concatenation followed by one single escape-replacement pass. -/
def specTtm (f : Nat) (nodes : List LitNode) : Option String :=
  (ttmNoRepWith (specRenderNodeF f) nodes).map replaceEsc

/-! ## convert_prop (convert.rs lines 122-143) -/

def startsWithBracket (s : String) : Bool :=
  match s.data with
  | '[' :: _ => true
  | _ => false

/-- `fn convert_prop`: arguments 0, 1, 2 are name, type expression and
    documentation; fewer arguments is a panic (`none`), and so is a type
    expression outside the grammar. -/
def convertProp (rn : LitNode → Option String) (args : List (List LitNode))
    (attrType : String) : Option (String × Property) :=
  match args.get? 0, args.get? 1, args.get? 2 with
  | some a0, some a1, some a2 =>
    match ttmWith rn a0, ttmWith rn a1, ttmWith rn a2 with
    | some n0, some t1, some d2 =>
      let propName := trimStr n0
      let typeName := trimStr t1
      match parseType (replaceStr typeName "-" "_") with
      | some ty =>
        some (propName,
          { required := attrType == "required-attribute",
            docs := trimStr d2,
            type_name := ty,
            list := startsWithBracket typeName })
      | none => none
    | _, _, _ => none
  | _, _, _ => none

/-! ## extend_child_properties (convert.rs lines 12-25) -/

/-- When the parent's own attributes are non-empty, they are inserted
    into the property map of every schema in the list that is flagged
    `is_group_member` (the parent's bindings overwriting the child's);
    all other schemas are left untouched. -/
def extendChildProperties (children : List Schema)
    (attrs : List (String × Property)) : List Schema :=
  if attrs.length > 0 then
    children.map (fun c =>
      if c.is_group_member then
        { c with properties := insertAll c.properties attrs }
      else c)
  else children

/-! ## collect_schemas / collect_attributes (convert.rs lines 27-120) -/

/-- The record pushed for the call itself (convert.rs lines 65-82):
    `group_members` are the names of the collected child schemas flagged
    `is_group_member`; when there is at least one, the record's own
    properties are emptied. -/
def schemaRecordOf (callName schemaName : String)
    (attrs : List (String × Property)) (childSchemas : List Schema) : Schema :=
  { schema_name := schemaName,
    properties :=
      if ((childSchemas.filter (fun s => s.is_group_member)).map
            (fun s => s.schema_name)).length > 0
      then [] else attrs,
    is_group_member := callName == "schema-group",
    group_members :=
      (childSchemas.filter (fun s => s.is_group_member)).map (fun s => s.schema_name) }

/-- The `"schema" | "schema-group"` branch of `collect_schemas`
    (convert.rs lines 33-88), parameterised by the recursive walker `cs`,
    the attribute collector `ca` and the node renderer `rn`.  Argument 0
    is the name, the attribute-bearing argument is argument 1 for
    "schema" and argument 2 for "schema-group"; missing arguments are a
    panic.  The result is the call's own record, then the inner schemas
    surfaced by the attribute collector, then the recursively collected
    child schemas (after the group-member merge). -/
def schemaCallWith (cs : List LitNode → Option (List Schema))
    (ca : List LitNode → Option (List ((String × Property) × List Schema)))
    (rn : LitNode → Option String)
    (callName : String) (args : List (List LitNode)) : Option (List Schema) :=
  match args.get? 0, args.get? (if callName == "schema" then 1 else 2) with
  | some a0, some aAttr =>
    match ttmWith rn a0, ca aAttr, optList cs args with
    | some name0, some pairs, some childLists =>
      let attrs := insertAll [] (pairs.map Prod.fst)
      let childSchemas := extendChildProperties childLists.flatten attrs
      some (schemaRecordOf callName (sanitize (trimStr name0)) attrs childSchemas ::
            ((pairs.map Prod.snd).flatten ++ childSchemas))
    | _, _, _ => none
  | _, _ => none

/-- One node of `collect_schemas`: text and comments contribute nothing,
    schema calls are handled by `schemaCallWith`, attribute calls are
    skipped, every other call is recursed into argument by argument. -/
def collectNodeWith (cs : List LitNode → Option (List Schema))
    (ca : List LitNode → Option (List ((String × Property) × List Schema)))
    (rn : LitNode → Option String) : LitNode → Option (List Schema)
  | .Text _ => some []
  | .Comment _ => some []
  | .Fn name args =>
    if name == "schema" || name == "schema-group" then
      schemaCallWith cs ca rn name args
    else if name == "required-attribute" || name == "optional-attribute" then
      some []
    else
      (optList cs args).map List.flatten

/-- One node of `collect_attributes`: an attribute call yields its
    (name, Property) pair together with the schemas collected from its
    own arguments; schema calls are not descended into; every other call
    is recursed into argument by argument. -/
def collectAttrNodeWith (cs : List LitNode → Option (List Schema))
    (ca : List LitNode → Option (List ((String × Property) × List Schema)))
    (rn : LitNode → Option String) :
    LitNode → Option (List ((String × Property) × List Schema))
  | .Text _ => some []
  | .Comment _ => some []
  | .Fn name args =>
    if name == "required-attribute" || name == "optional-attribute" then
      match convertProp rn args name, optList cs args with
      | some pv, some inner => some [(pv, inner.flatten)]
      | _, _ => none
    else if name == "schema" || name == "schema-group" then
      some []
    else
      (optList ca args).map List.flatten

/-- The mutually recursive pair (`collect_schemas`, `collect_attributes`)
    at each fuel level; the walker and the collector of one level recurse
    into subtrees through the pair of the previous level. -/
def collectF : Nat →
    (List LitNode → Option (List Schema)) ×
    (List LitNode → Option (List ((String × Property) × List Schema)))
  | 0 => (fun _ => none, fun _ => none)
  | f+1 =>
    ( fun nodes =>
        (optList (collectNodeWith (collectF f).1 (collectF f).2 (renderNodeF f)) nodes).map
          List.flatten,
      fun nodes =>
        (optList (collectAttrNodeWith (collectF f).1 (collectF f).2 (renderNodeF f)) nodes).map
          List.flatten )

def collectSchemas (f : Nat) (nodes : List LitNode) : Option (List Schema) :=
  (collectF f).1 nodes

def collectAttributes (f : Nat) (nodes : List LitNode) :
    Option (List ((String × Property) × List Schema)) :=
  (collectF f).2 nodes

/-- `pub fn to_jsonschemas` (convert.rs lines 8-10). -/
def toJsonschemas (f : Nat) (doc : List LitNode) : Option (List Schema) :=
  collectSchemas f doc

/-! ## Concrete documents used by the claims -/

/-- The property produced by `\required-attribute{y}{t}{d}`. -/
def pyProp : Property :=
  { required := true, docs := "d", type_name := .OneOf [.Ref "t"], list := false }

/-- The property produced by `\required-attribute{x}{tx}{dx}`. -/
def pxProp : Property :=
  { required := true, docs := "dx", type_name := .OneOf [.Ref "tx"], list := false }

def attrYNode : LitNode := .Fn "required-attribute" [[.Text "y"], [.Text "t"], [.Text "d"]]

def attrXNode : LitNode := .Fn "required-attribute" [[.Text "x"], [.Text "tx"], [.Text "dx"]]

/-- The section 8 scenario: a schema-group `grp` declaring attribute `y`,
    with one group-member child `child` declaring attribute `x`. -/
def doc2 : List LitNode :=
  [.Fn "schema-group"
    [[.Text "grp"], [],
     [attrYNode, .Fn "schema-group" [[.Text "child"], [], [attrXNode]]]]]

def grpRec : Schema :=
  { schema_name := "grp", properties := [], is_group_member := true,
    group_members := ["child"] }

def childRec : Schema :=
  { schema_name := "child", properties := [("x", pxProp), ("y", pyProp)],
    is_group_member := true, group_members := [] }

/-- A schema `p` declaring attribute `y`, containing a schema-group `g1`
    which itself contains a group-member schema-group `g2`: `g2` is a
    deeper descendant of `p`, not a direct child. -/
def docNested : List LitNode :=
  [.Fn "schema"
    [[.Text "p"],
     [attrYNode,
      .Fn "schema-group"
        [[.Text "g1"], [], [.Fn "schema-group" [[.Text "g2"], [], []]]]]]]

def pRecN : Schema :=
  { schema_name := "p", properties := [], is_group_member := false,
    group_members := ["g1", "g2"] }

def g1RecN : Schema :=
  { schema_name := "g1", properties := [("y", pyProp)], is_group_member := true,
    group_members := ["g2"] }

def g2RecN : Schema :=
  { schema_name := "g2", properties := [("y", pyProp)], is_group_member := true,
    group_members := [] }

/-- The tree refuting the single-post-pass reading of the renderer: a
    bold node whose text is backslash backslash brace. -/
def cexBoldDoc : List LitNode := [.Fn "bold" [[.Text "\\\\\x7b"]]]

/-! ## Helper lemmas -/

theorem optList_mem {α β : Type} (g : α → Option β) :
    ∀ (l : List α) (ys : List β), optList g l = some ys →
      ∀ y ∈ ys, ∃ a ∈ l, g a = some y := by
  intro l
  induction l with
  | nil =>
    intro ys h y hy
    simp only [optList, Option.some.injEq] at h
    subst h
    simp at hy
  | cons a as ih =>
    intro ys h y hy
    simp only [optList] at h
    cases hga : g a with
    | none => rw [hga] at h; exact Option.noConfusion h
    | some b =>
      rw [hga] at h
      cases hrest : optList g as with
      | none => rw [hrest] at h; exact Option.noConfusion h
      | some bs =>
        rw [hrest] at h
        simp only [Option.some.injEq] at h
        subst h
        rcases List.mem_cons.mp hy with h1 | h2
        · exact ⟨a, List.mem_cons_self a as, h1 ▸ hga⟩
        · rcases ih bs hrest y h2 with ⟨a', ha', hga'⟩
          exact ⟨a', List.mem_cons_of_mem _ ha', hga'⟩

theorem optList_flatten_mem {α β : Type} (g : α → Option (List β))
    (l : List α) (out : List β)
    (h : (optList g l).map List.flatten = some out) :
    ∀ y ∈ out, ∃ a ∈ l, ∃ o, g a = some o ∧ y ∈ o := by
  intro y hy
  cases hol : optList g l with
  | none => rw [hol] at h; exact Option.noConfusion h
  | some ls =>
    rw [hol] at h
    simp only [Option.map_some', Option.some.injEq] at h
    subst h
    rcases List.mem_flatten.mp hy with ⟨o, ho, hyo⟩
    rcases optList_mem g l ls hol o ho with ⟨a, ha, hga⟩
    exact ⟨a, ha, o, hga, hyo⟩

/-- The invariant of claim C7, for one schema record. -/
def SchemaInv (r : Schema) : Prop :=
  r.is_group_member = false → r.group_members ≠ [] → r.properties = []

theorem extendChildProperties_mem (children : List Schema)
    (attrs : List (String × Property)) :
    ∀ r' ∈ extendChildProperties children attrs,
      ∃ c ∈ children,
        r'.is_group_member = c.is_group_member ∧
        r'.group_members = c.group_members ∧
        (c.is_group_member = false → r' = c) := by
  intro r' hr'
  unfold extendChildProperties at hr'
  by_cases hlen : attrs.length > 0
  · rw [if_pos hlen] at hr'
    rcases List.mem_map.mp hr' with ⟨c, hc, hfc⟩
    by_cases hflag : c.is_group_member
    · rw [if_pos hflag] at hfc
      subst hfc
      exact ⟨c, hc, rfl, rfl, fun hfalse => absurd hflag (by rw [hfalse]; exact Bool.false_ne_true)⟩
    · rw [if_neg hflag] at hfc
      subst hfc
      exact ⟨c, hc, rfl, rfl, fun _ => rfl⟩
  · rw [if_neg hlen] at hr'
    exact ⟨r', hr', rfl, rfl, fun _ => rfl⟩

theorem schemaRecordOf_inv (callName schemaName : String)
    (attrs : List (String × Property)) (childSchemas : List Schema) :
    SchemaInv (schemaRecordOf callName schemaName attrs childSchemas) := by
  intro _ hgm
  unfold schemaRecordOf at hgm ⊢
  simp only at hgm ⊢
  exact if_pos (List.length_pos.mpr hgm)

theorem schemaCallWith_inv
    (cs : List LitNode → Option (List Schema))
    (ca : List LitNode → Option (List ((String × Property) × List Schema)))
    (rn : LitNode → Option String)
    (Hcs : ∀ ns o, cs ns = some o → ∀ r ∈ o, SchemaInv r)
    (Hca : ∀ ns p, ca ns = some p → ∀ pr ∈ p, ∀ r ∈ pr.2, SchemaInv r)
    (callName : String) (args : List (List LitNode)) (out : List Schema)
    (h : schemaCallWith cs ca rn callName args = some out) :
    ∀ r ∈ out, SchemaInv r := by
  unfold schemaCallWith at h
  split at h
  case h_2 => exact Option.noConfusion h
  case h_1 a0 aAttr hget0 hgetA =>
    split at h
    case h_2 => exact Option.noConfusion h
    case h_1 name0 pairs childLists httm hca hcl =>
      simp only [Option.some.injEq] at h
      subst h
      intro r hr
      rcases List.mem_cons.mp hr with h1 | h2
      · subst h1
        exact schemaRecordOf_inv _ _ _ _
      · rcases List.mem_append.mp h2 with h3 | h4
        · rcases List.mem_flatten.mp h3 with ⟨o, ho, hro⟩
          rcases List.mem_map.mp ho with ⟨pr, hpr, rfl⟩
          exact Hca aAttr pairs hca pr hpr r hro
        · rcases extendChildProperties_mem _ _ r h4 with ⟨c, hc, hfeq, hgeq, hsame⟩
          intro hrf hrgm
          have hcf : c.is_group_member = false := hfeq ▸ hrf
          have hrc : r = c := hsame hcf
          subst hrc
          rcases List.mem_flatten.mp hc with ⟨cl, hcl2, hccl⟩
          rcases optList_mem cs args childLists hcl cl hcl2 with ⟨a, _, hcsa⟩
          exact Hcs a cl hcsa r hccl hrf hrgm

theorem collectNodeWith_inv
    (cs : List LitNode → Option (List Schema))
    (ca : List LitNode → Option (List ((String × Property) × List Schema)))
    (rn : LitNode → Option String)
    (Hcs : ∀ ns o, cs ns = some o → ∀ r ∈ o, SchemaInv r)
    (Hca : ∀ ns p, ca ns = some p → ∀ pr ∈ p, ∀ r ∈ pr.2, SchemaInv r) :
    ∀ (n : LitNode) (out : List Schema),
      collectNodeWith cs ca rn n = some out → ∀ r ∈ out, SchemaInv r := by
  intro n out h r hr
  cases n with
  | Text t =>
    simp only [collectNodeWith, Option.some.injEq] at h
    subst h; simp at hr
  | Comment c =>
    simp only [collectNodeWith, Option.some.injEq] at h
    subst h; simp at hr
  | Fn name args =>
    simp only [collectNodeWith] at h
    split at h
    · exact schemaCallWith_inv cs ca rn Hcs Hca name args out h r hr
    · split at h
      · simp only [Option.some.injEq] at h; subst h; simp at hr
      · rcases optList_flatten_mem cs args out h r hr with ⟨a, _, o, hcsa, hro⟩
        exact Hcs a o hcsa r hro

theorem collectAttrNodeWith_inv
    (cs : List LitNode → Option (List Schema))
    (ca : List LitNode → Option (List ((String × Property) × List Schema)))
    (rn : LitNode → Option String)
    (Hcs : ∀ ns o, cs ns = some o → ∀ r ∈ o, SchemaInv r)
    (Hca : ∀ ns p, ca ns = some p → ∀ pr ∈ p, ∀ r ∈ pr.2, SchemaInv r) :
    ∀ (n : LitNode) (pairs : List ((String × Property) × List Schema)),
      collectAttrNodeWith cs ca rn n = some pairs →
      ∀ pr ∈ pairs, ∀ r ∈ pr.2, SchemaInv r := by
  intro n pairs h pr hpr r hr
  cases n with
  | Text t =>
    simp only [collectAttrNodeWith, Option.some.injEq] at h
    subst h; simp at hpr
  | Comment c =>
    simp only [collectAttrNodeWith, Option.some.injEq] at h
    subst h; simp at hpr
  | Fn name args =>
    simp only [collectAttrNodeWith] at h
    split at h
    · split at h
      case h_2 => exact Option.noConfusion h
      case h_1 pv inner hcp hol =>
        simp only [Option.some.injEq] at h
        subst h
        simp only [List.mem_singleton] at hpr
        subst hpr
        rcases List.mem_flatten.mp hr with ⟨o, ho, hro⟩
        rcases optList_mem cs args inner hol o ho with ⟨a, _, hcsa⟩
        exact Hcs a o hcsa r hro
    · split at h
      · simp only [Option.some.injEq] at h; subst h; simp at hpr
      · cases holv : optList ca args with
        | none => rw [holv] at h; exact Option.noConfusion h
        | some ls =>
          rw [holv] at h
          simp only [Option.map_some', Option.some.injEq] at h
          subst h
          rcases List.mem_flatten.mp hpr with ⟨o, ho, hpro⟩
          rcases optList_mem ca args ls holv o ho with ⟨a, _, hcaa⟩
          exact Hca a o hcaa pr hpro r hr

/-- The claim C7 invariant, restricted to records not flagged
    `is_group_member`, holds at every fuel level, jointly for the walker
    and the attribute collector. -/
theorem collect_inv : ∀ f : Nat,
    (∀ ns out, (collectF f).1 ns = some out → ∀ r ∈ out, SchemaInv r) ∧
    (∀ ns pairs, (collectF f).2 ns = some pairs →
      ∀ pr ∈ pairs, ∀ r ∈ pr.2, SchemaInv r) := by
  intro f
  induction f with
  | zero =>
    constructor
    · intro ns out h; exact Option.noConfusion h
    · intro ns pairs h; exact Option.noConfusion h
  | succ f ih =>
    constructor
    · intro ns out h r hr
      simp only [collectF] at h
      rcases optList_flatten_mem _ ns out h r hr with ⟨n, _, o, hn, hro⟩
      exact collectNodeWith_inv _ _ _ ih.1 ih.2 n o hn r hro
    · intro ns pairs h pr hpr r hr
      simp only [collectF] at h
      rcases optList_flatten_mem _ ns pairs h pr hpr with ⟨n, _, o, hn, hpro⟩
      exact collectAttrNodeWith_inv _ _ _ ih.1 ih.2 n o hn pr hpro r hr

theorem lookupP_not_mem (k : String) :
    ∀ m : List (String × Property), k ∉ m.map Prod.fst → lookupP k m = none := by
  intro m
  induction m with
  | nil => intro _; rfl
  | cons p m' ih =>
    intro h
    simp only [List.map_cons, List.mem_cons] at h
    push_neg at h
    obtain ⟨p1, p2⟩ := p
    simp only [lookupP, if_neg h.1]
    exact ih h.2

theorem lookupP_mapReplace_self (k : String) (v : Property) :
    ∀ m : List (String × Property), ((m.map Prod.fst).contains k) = true →
      lookupP k (m.map (fun p => if p.1 = k then (k, v) else p)) = some v := by
  intro m
  induction m with
  | nil => intro h; simp at h
  | cons p m' ih =>
    intro h
    obtain ⟨p1, p2⟩ := p
    by_cases h1 : p1 = k
    · subst h1
      simp only [List.map_cons]
      split
      · simp [lookupP]
      · next hfalse => exact absurd trivial hfalse
    · have h' : ((m'.map Prod.fst).contains k) = true := by
        simp only [List.map_cons, List.contains_cons] at h
        rcases Bool.or_eq_true_iff.mp h with h2 | h2
        · exact absurd (beq_iff_eq.mp h2).symm h1
        · exact h2
      simp only [List.map_cons]
      rw [if_neg (show ¬((p1, p2).1 = k) from h1)]
      simp only [lookupP]
      rw [if_neg (show ¬(k = p1) from fun he => h1 he.symm)]
      exact ih h'

theorem lookupP_mapReplace_ne (k k0 : String) (v : Property) (hne : k ≠ k0) :
    ∀ m : List (String × Property),
      lookupP k (m.map (fun p => if p.1 = k0 then (k0, v) else p)) = lookupP k m := by
  intro m
  induction m with
  | nil => rfl
  | cons p m' ih =>
    obtain ⟨p1, p2⟩ := p
    simp only [List.map_cons]
    by_cases h1 : p1 = k0
    · rw [if_pos (show (p1, p2).1 = k0 from h1)]
      simp only [lookupP]
      rw [if_neg hne, if_neg (show ¬(k = p1) from h1 ▸ hne)]
      exact ih
    · rw [if_neg (show ¬((p1, p2).1 = k0) from h1)]
      simp only [lookupP]
      exact if_congr Iff.rfl rfl ih

theorem lookupP_append_self (k : String) (v : Property) :
    ∀ m : List (String × Property), ((m.map Prod.fst).contains k) = false →
      lookupP k (m ++ [(k, v)]) = some v := by
  intro m
  induction m with
  | nil => simp [lookupP]
  | cons p m' ih =>
    intro h
    obtain ⟨p1, p2⟩ := p
    simp only [List.map_cons, List.contains_cons, Bool.or_eq_false_iff] at h
    have h1 : ¬(k = p1) := fun he => absurd h.1 (by rw [he]; simp)
    simp only [List.cons_append, lookupP]
    rw [if_neg h1]
    exact ih h.2

theorem lookupP_append_ne (k k0 : String) (v : Property) (hne : k ≠ k0) :
    ∀ m : List (String × Property), lookupP k (m ++ [(k0, v)]) = lookupP k m := by
  intro m
  induction m with
  | nil => simp [lookupP, if_neg hne]
  | cons p m' ih =>
    obtain ⟨p1, p2⟩ := p
    simp only [List.cons_append, lookupP]
    exact if_congr Iff.rfl rfl ih

theorem lookupP_mapInsert_self (m : List (String × Property)) (k : String) (v : Property) :
    lookupP k (mapInsert m k v) = some v := by
  unfold mapInsert
  by_cases h : ((m.map Prod.fst).contains k) = true
  · rw [if_pos h]
    exact lookupP_mapReplace_self k v m h
  · rw [if_neg h]
    exact lookupP_append_self k v m (Bool.not_eq_true _ ▸ h)

theorem lookupP_mapInsert_ne (m : List (String × Property)) (k k0 : String)
    (v : Property) (hne : k ≠ k0) :
    lookupP k (mapInsert m k0 v) = lookupP k m := by
  unfold mapInsert
  split
  · exact lookupP_mapReplace_ne k k0 v hne m
  · exact lookupP_append_ne k k0 v hne m

theorem lookupP_insertAll (k : String) :
    ∀ (entries : List (String × Property)), (entries.map Prod.fst).Nodup →
      ∀ m : List (String × Property),
        lookupP k (insertAll m entries) =
          ((lookupP k entries).orElse (fun _ => lookupP k m)) := by
  intro entries
  induction entries with
  | nil =>
    intro _ m
    rfl
  | cons e rest ih =>
    intro hnd m
    obtain ⟨k0, v0⟩ := e
    simp only [List.map_cons, List.nodup_cons] at hnd
    have step : insertAll m ((k0, v0) :: rest) = insertAll (mapInsert m k0 v0) rest := rfl
    rw [step, ih hnd.2 (mapInsert m k0 v0)]
    by_cases hk : k = k0
    · subst hk
      have hnone : lookupP k rest = none := lookupP_not_mem k rest hnd.1
      rw [hnone]
      simp only [lookupP, if_pos rfl]
      simp only [Option.orElse]
      exact lookupP_mapInsert_self m k v0
    · simp only [lookupP, if_neg hk]
      cases lookupP k rest with
      | none =>
        simp only [Option.orElse]
        exact lookupP_mapInsert_ne m k k0 v0 hk
      | some v => rfl

theorem firstNonSpacePos_of_any_false :
    ∀ x : List Char, x.any (fun c => c != ' ') = false → firstNonSpacePos x = none := by
  intro x
  induction x with
  | nil => intro _; rfl
  | cons c cs ih =>
    intro h
    simp only [List.any_cons, Bool.or_eq_false_iff] at h
    have hc : c = ' ' := by
      have := h.1
      simp only [bne_eq_false_iff_eq] at this
      exact this
    simp only [firstNonSpacePos, if_pos hc, ih h.2, Option.map_none']

theorem firstNonSpacePos_of_any_true :
    ∀ x : List Char, x.any (fun c => c != ' ') = true →
      firstNonSpacePos x = some (leadingSpaces x) := by
  intro x
  induction x with
  | nil => intro h; simp at h
  | cons c cs ih =>
    intro h
    by_cases hc : c = ' '
    · have hcs : cs.any (fun c => c != ' ') = true := by
        simp only [List.any_cons, hc] at h
        simpa using h
      simp only [firstNonSpacePos, if_pos hc, ih hcs, Option.map_some', leadingSpaces,
        List.takeWhile_cons, hc, beq_self_eq_true, if_pos, List.length_cons]
    · simp only [firstNonSpacePos, if_neg hc, leadingSpaces, List.takeWhile_cons]
      rw [if_neg (by simpa using hc)]
      rfl

theorem leadingSpaces_lt_of_any_true :
    ∀ x : List Char, x.any (fun c => c != ' ') = true →
      leadingSpaces x < x.length := by
  intro x
  induction x with
  | nil => intro h; simp at h
  | cons c cs ih =>
    intro h
    by_cases hc : c = ' '
    · have hcs : cs.any (fun c => c != ' ') = true := by
        simp only [List.any_cons, hc] at h
        simpa using h
      simp only [leadingSpaces, List.takeWhile_cons, List.length_cons] at ih ⊢
      rw [if_pos (by simpa using hc)]
      simpa using Nat.succ_lt_succ (ih hcs)
    · simp only [leadingSpaces, List.takeWhile_cons, List.length_cons]
      rw [if_neg (by simpa using hc)]
      simp

theorem minNat?_eq_none : ∀ xs : List Nat, minNat? xs = none ↔ xs = [] := by
  intro xs
  cases xs with
  | nil => simp [minNat?]
  | cons x xs =>
    simp only [minNat?]
    constructor
    · intro h
      cases hm : minNat? xs with
      | none => rw [hm] at h; exact Option.noConfusion h
      | some m => rw [hm] at h; exact Option.noConfusion h
    · intro h; exact List.noConfusion h

theorem minNat?_le : ∀ (xs : List Nat) (m : Nat), minNat? xs = some m →
    ∀ x ∈ xs, m ≤ x := by
  intro xs
  induction xs with
  | nil => intro m h; simp [minNat?] at h
  | cons x xs ih =>
    intro m h y hy
    simp only [minNat?] at h
    cases hm : minNat? xs with
    | none =>
      rw [hm] at h
      simp only [Option.some.injEq] at h
      subst h
      rcases List.mem_cons.mp hy with h1 | h2
      · exact le_of_eq h1.symm
      · exact absurd h2 (by rw [(minNat?_eq_none xs).mp hm]; simp)
    | some m' =>
      rw [hm] at h
      simp only [Option.some.injEq] at h
      subst h
      rcases List.mem_cons.mp hy with h1 | h2
      · exact h1 ▸ Nat.min_le_left x m'
      · exact le_trans (Nat.min_le_right x m') (ih m' hm y h2)

theorem minNat?_getD_le (xs : List Nat) (x : Nat) (hx : x ∈ xs) :
    (minNat? xs).getD 0 ≤ x := by
  cases hm : minNat? xs with
  | none =>
    rw [(minNat?_eq_none xs).mp hm] at hx
    simp at hx
  | some m => exact minNat?_le xs m hm x hx

theorem filter_dropLast_of_getLast_empty (P : List Char → Bool) (hP : P [] = false) :
    ∀ p : List (List Char), p.getLast? = some [] →
      p.dropLast.filter P = p.filter P := by
  intro p
  induction p with
  | nil => intro h; exact Option.noConfusion h
  | cons a t ih =>
    intro h
    cases t with
    | nil =>
      simp only [List.getLast?_singleton, Option.some.injEq] at h
      subst h
      simp [hP]
    | cons b t' =>
      rw [List.getLast?_cons_cons] at h
      have hd : (a :: b :: t').dropLast = a :: (b :: t').dropLast := rfl
      rw [hd]
      simp only [List.filter_cons, ih h]

theorem linesOf_filter (P : List Char → Bool) (hP : P [] = false) (l : List Char) :
    (linesOf l).filter P = (splitNl l).filter P := by
  simp only [linesOf]
  split
  · next h => exact filter_dropLast_of_getLast_empty P hP (splitNl l) h
  · rfl

theorem filterMap_firstNonSpacePos_eq :
    ∀ p : List (List Char),
      (p.filter (fun x => !x.isEmpty)).filterMap firstNonSpacePos =
        (p.filter (fun x => x.any (fun c => c != ' '))).map leadingSpaces := by
  intro p
  induction p with
  | nil => rfl
  | cons x p' ih =>
    by_cases hx : x.any (fun c => c != ' ') = true
    · have hne : x ≠ [] := by
        intro he; subst he; simp at hx
      have hemp : (!x.isEmpty) = true := by
        simp [List.isEmpty_iff, hne]
      simp only [List.filter_cons, hemp, hx, if_pos, List.filterMap_cons,
        firstNonSpacePos_of_any_true x hx, List.map_cons, ih]
    · have hx' : x.any (fun c => c != ' ') = false := by
        simpa using hx
      by_cases hne : x = []
      · subst hne
        simp only [List.filter_cons]
        simp [ih]
      · have hemp : (!x.isEmpty) = true := by
          simp [List.isEmpty_iff, hne]
        simp only [List.filter_cons, hemp, hx', if_pos, List.filterMap_cons,
          firstNonSpacePos_of_any_false x hx', ih]
        simp [ih]

theorem amendedTrimCount_eq (l : List Char) :
    amendedTrimCount l = trimStartCount l := by
  unfold amendedTrimCount trimStartCount
  rw [linesOf_filter (fun x => !x.isEmpty) (by simp) l, filterMap_firstNonSpacePos_eq]

theorem trimBoth_of_any_false (x : List Char)
    (h : x.any (fun c => c != ' ') = false) : trimBoth x = [] := by
  have hdrop : x.dropWhile isWhiteC = [] := by
    induction x with
    | nil => rfl
    | cons c cs ih =>
      simp only [List.any_cons, Bool.or_eq_false_iff] at h
      have hc : c = ' ' := by
        have := h.1
        simp only [bne_eq_false_iff_eq] at this
        exact this
      rw [List.dropWhile_cons]
      rw [if_pos (by rw [hc]; rfl)]
      exact ih h.2
  unfold trimBoth
  rw [hdrop]
  rfl

theorem specLineF_eq_codeLineF (l : List Char) (x : List Char)
    (hx : x ∈ splitNl l) :
    specLineF (trimStartCount l) x = codeLineF (trimStartCount l) x := by
  unfold specLineF codeLineF
  rcases Nat.lt_trichotomy (trimStartCount l) x.length with hlt | heq | hgt
  · rw [if_pos (le_of_lt hlt), if_pos hlt]
  · rw [if_pos (le_of_eq heq), if_neg (by omega)]
    by_cases hany : x.any (fun c => c != ' ') = true
    · exfalso
      have h1 : leadingSpaces x < x.length := leadingSpaces_lt_of_any_true x hany
      have h2 : trimStartCount l ≤ leadingSpaces x := by
        rw [← amendedTrimCount_eq l]
        unfold amendedTrimCount
        exact minNat?_getD_le _ _
          (List.mem_map_of_mem leadingSpaces (List.mem_filter.mpr ⟨hx, hany⟩))
      omega
    · have hfalse : x.any (fun c => c != ' ') = false := by simpa using hany
      rw [heq, List.drop_length, trimBoth_of_any_false x hfalse]
  · rw [if_neg (by omega), if_neg (by omega)]

theorem amendedTrimCodeblock_eq (s : String) :
    amendedTrimCodeblock s = trimCodeblock s := by
  unfold amendedTrimCodeblock trimCodeblock trimCodeblockL
  apply congrArg String.mk
  apply congrArg joinNl
  rw [amendedTrimCount_eq s.data]
  apply List.map_congr_left
  intro x hx
  exact congrArg (fun y => fourSpaces ++ y) (specLineF_eq_codeLineF s.data x hx)

/-- The pointwise description of the group-member merge (claim C2): each
    entry of the output corresponds to the input schema at the same
    position; schemas not flagged `is_group_member` are returned
    unchanged, and for flagged ones the parent attributes win on key
    collision. -/
theorem extendChildProperties_spec (children : List Schema)
    (attrs : List (String × Property)) :
    List.Forall₂ (fun c c' =>
      c'.schema_name = c.schema_name ∧
      c'.is_group_member = c.is_group_member ∧
      c'.group_members = c.group_members ∧
      (c.is_group_member = false → c' = c) ∧
      ((attrs.map Prod.fst).Nodup → c.is_group_member = true → ∀ k,
        lookupP k c'.properties =
          ((lookupP k attrs).orElse (fun _ => lookupP k c.properties))))
      children (extendChildProperties children attrs) := by
  unfold extendChildProperties
  split
  · rw [List.forall₂_map_right_iff]
    rw [List.forall₂_same]
    intro c _
    by_cases hflag : c.is_group_member
    · rw [if_pos hflag]
      refine ⟨rfl, rfl, rfl, ?_, ?_⟩
      · intro h
        rw [hflag] at h
        exact absurd h (by simp)
      · intro hnd _ k
        exact lookupP_insertAll k attrs hnd c.properties
    · rw [if_neg hflag]
      exact ⟨rfl, rfl, rfl, fun _ => rfl,
        fun _ ht => absurd ht hflag⟩
  · next hlen =>
    have hattrs : attrs = [] := by
      cases attrs with
      | nil => rfl
      | cons a t => exact absurd (by simp) hlen
    rw [List.forall₂_same]
    intro c _
    refine ⟨rfl, rfl, rfl, fun _ => rfl, ?_⟩
    intro _ _ k
    rw [hattrs]
    rfl

/-- A node is plain when it is a text leaf or a comment. -/
def isPlain : LitNode → Bool
  | .Text _ => true
  | .Comment _ => true
  | .Fn _ _ => false

theorem renderNodeF_plain (f : Nat) (n : LitNode) (h : isPlain n = true) :
    renderNodeF f n = specRenderNodeF f n := by
  cases n with
  | Text t => cases f <;> rfl
  | Comment c => cases f <;> rfl
  | Fn name args => exact absurd h (by simp [isPlain])

/-- The record pushed for a schema call is the head of the branch's
    output and carries `is_group_member = (call name == "schema-group")`. -/
theorem schemaCallWith_head_flag
    (cs : List LitNode → Option (List Schema))
    (ca : List LitNode → Option (List ((String × Property) × List Schema)))
    (rn : LitNode → Option String)
    (callName : String) (args : List (List LitNode))
    (r : Schema) (rest : List Schema)
    (h : schemaCallWith cs ca rn callName args = some (r :: rest)) :
    r.is_group_member = (callName == "schema-group") := by
  unfold schemaCallWith at h
  split at h
  case h_2 => exact Option.noConfusion h
  case h_1 =>
    split at h
    case h_2 => exact Option.noConfusion h
    case h_1 =>
      simp only [Option.some.injEq, List.cons.injEq] at h
      rw [← h.1]
      rfl

/-! ## Claims -/

/-- Claim C1, counterexample: the claimed equation `parse("a") = Ref("a")`
    is false — the union alternative of `lit_type` is tried first and a
    single element already satisfies the one-or-more repetition, so the
    parser returns `OneOf([Ref("a")])`, not the bare `Ref("a")`. -/
theorem C1_counterexample :
    parseType "a" = some (PropertyType.OneOf [PropertyType.Ref "a"]) ∧
    parseType "a" ≠ some (PropertyType.Ref "a") := by
  refine ⟨rfl, ?_⟩
  intro h
  rw [show parseType "a" = some (PropertyType.OneOf [PropertyType.Ref "a"]) from rfl] at h
  exact PropertyType.noConfusion (Option.some.inj h)

/-- Claim C1, amended: every application of the `lit_type` rule — at top
    level and inside each pair of array brackets — wraps its result in a
    `OneOf`, because the union alternative is tried first and succeeds
    with a one-element list; with that wrapping the reference equations
    of section 8 hold: parse("a") = OneOf([Ref("a")]),
    parse("a.b") = OneOf([Ref("string")]),
    parse("[a]") = OneOf([ArrayOf(OneOf([Ref("a")]))]),
    parse("[[a]]") = OneOf([ArrayOf(OneOf([ArrayOf(OneOf([Ref("a")]))]))]),
    parse("a|b") = OneOf([Ref("a"), Ref("b")]),
    parse of a backquoted x = OneOf([Constant("x")]), and
    parse of a brace-enclosed k:v = OneOf([Dict]). -/
theorem C1_amended :
    parseType "a" = some (PropertyType.OneOf [PropertyType.Ref "a"]) ∧
    parseType "a.b" = some (PropertyType.OneOf [PropertyType.Ref "string"]) ∧
    parseType "[a]" = some (PropertyType.OneOf
      [PropertyType.ArrayOf (PropertyType.OneOf [PropertyType.Ref "a"])]) ∧
    parseType "[[a]]" = some (PropertyType.OneOf
      [PropertyType.ArrayOf (PropertyType.OneOf
        [PropertyType.ArrayOf (PropertyType.OneOf [PropertyType.Ref "a"])])]) ∧
    parseType "a|b" = some (PropertyType.OneOf
      [PropertyType.Ref "a", PropertyType.Ref "b"]) ∧
    parseType "\x60x\x60" = some (PropertyType.OneOf [PropertyType.Constant "x"]) ∧
    parseType "\x7bk:v\x7d" = some (PropertyType.OneOf [PropertyType.Dict]) :=
  ⟨rfl, rfl, rfl, rfl, rfl, rfl, rfl⟩

/-- Claim C2, counterexample: in `docNested` the schema `g2` is a deeper
    descendant of `p` (it is declared inside `g1`), not a direct child,
    yet the walker merges `p`'s own attribute `y` into `g2`'s property
    map, because `collect_schemas` flattens all descendant schemas into
    one list before `extend_child_properties` runs. -/
theorem C2_counterexample :
    toJsonschemas 20 docNested = some [pRecN, g1RecN, g2RecN] ∧
    g2RecN.schema_name = "g2" ∧
    lookupP "y" g2RecN.properties = some pyProp :=
  ⟨rfl, rfl, rfl⟩

/-- Claim C2, amended: the non-empty own properties of a schema call are
    merged into exactly the schemas flagged `is_group_member` among all
    schemas collected from the call's arguments — deeper descendant group
    members included, not only direct children — with the parent's keys
    winning on collision, and schemas not flagged `is_group_member` are
    returned unchanged; in the section 8 scenario the child's resulting
    properties are x and y and the group's own record has empty
    properties and group_members = [child]. -/
theorem C2_amended :
    (∀ (children : List Schema) (attrs : List (String × Property)),
      List.Forall₂ (fun c c' =>
        c'.schema_name = c.schema_name ∧
        c'.is_group_member = c.is_group_member ∧
        c'.group_members = c.group_members ∧
        (c.is_group_member = false → c' = c) ∧
        ((attrs.map Prod.fst).Nodup → c.is_group_member = true → ∀ k,
          lookupP k c'.properties =
            ((lookupP k attrs).orElse (fun _ => lookupP k c.properties))))
        children (extendChildProperties children attrs)) ∧
    toJsonschemas 20 doc2 = some [grpRec, childRec] ∧
    lookupP "x" childRec.properties = some pxProp ∧
    lookupP "y" childRec.properties = some pyProp ∧
    childRec.properties.length = 2 ∧
    grpRec.properties = [] ∧
    grpRec.group_members = ["child"] :=
  ⟨extendChildProperties_spec, rfl, rfl, rfl, rfl, rfl, rfl⟩

/-- Claim C2, witness: the merge description instantiated at one concrete
    child list and attribute list. -/
theorem C2_witness :
    List.Forall₂ (fun c c' =>
      c'.schema_name = c.schema_name ∧
      c'.is_group_member = c.is_group_member ∧
      c'.group_members = c.group_members ∧
      (c.is_group_member = false → c' = c) ∧
      ((([("y", pyProp)] : List (String × Property)).map Prod.fst).Nodup →
        c.is_group_member = true → ∀ k,
        lookupP k c'.properties =
          ((lookupP k [("y", pyProp)]).orElse (fun _ => lookupP k c.properties))))
      [childRec] (extendChildProperties [childRec] [("y", pyProp)]) :=
  C2_amended.1 [childRec] [("y", pyProp)]

/-- Claim C3: the paragraph-break replacement in `clean_text` is checked
    against the padded line, never against the trimmed line, so the
    branch is dead: the blank line in the middle becomes two spaces and
    the documented result is not produced. -/
theorem C3_clean_text_eval :
    cleanText "  hi  \n\n  bye " = " hi    bye " ∧
    cleanText "  hi  \n\n  bye " ≠ " hi \n\n bye " :=
  ⟨rfl, by decide⟩

/-- Claim C4, counterexample: rendering the bold node around the text
    backslash backslash brace unescapes twice — once inside the recursive
    call and once at top level — whereas a single post-pass over the
    unreplaced concatenation unescapes once; the two results differ. -/
theorem C4_counterexample :
    textToMarkdown 5 cexBoldDoc = some "** \x7b **" ∧
    specTtm 5 cexBoldDoc = some "** \\\x7b **" ∧
    textToMarkdown 5 cexBoldDoc ≠ specTtm 5 cexBoldDoc :=
  ⟨rfl, rfl, by decide⟩

theorem optList_render_plain (f : Nat) :
    ∀ nodes : List LitNode, (∀ n ∈ nodes, isPlain n = true) →
      optList (renderNodeF f) nodes = optList (specRenderNodeF f) nodes := by
  intro nodes
  induction nodes with
  | nil => intro _; rfl
  | cons n ns ih =>
    intro h
    simp only [optList]
    rw [renderNodeF_plain f n (h n (List.mem_cons_self n ns)),
        ih (fun m hm => h m (List.mem_cons_of_mem n hm))]

/-- Claim C4, amended: the escape replacement is applied by every
    recursive invocation of the renderer over that invocation's
    concatenated content, not once globally; consequently the claimed
    equality with a single final replacement pass holds exactly for node
    lists containing no function-call nodes. -/
theorem C4_amended :
    ∀ (f : Nat) (nodes : List LitNode), (∀ n ∈ nodes, isPlain n = true) →
      textToMarkdown f nodes = specTtm f nodes := by
  intro f nodes h
  unfold textToMarkdown specTtm ttmWith ttmNoRepWith
  rw [optList_render_plain f nodes h]
  cases optList (specRenderNodeF f) nodes <;> rfl

/-- Claim C4, witness: the amended statement applied to one plain list. -/
theorem C4_witness :
    textToMarkdown 3 [LitNode.Text "hi"] = specTtm 3 [LitNode.Text "hi"] :=
  C4_amended 3 [LitNode.Text "hi"] (by decide)

/-- Claim C5, counterexample: whitespace around the union separator is
    accepted by the grammar (the separator is `_ "|" _`), and whitespace
    between the dictionary value and the closing brace is rejected (the
    rule has no whitespace before the closing brace); both contradict the
    claim. -/
theorem C5_counterexample :
    parseType "a | b" = some (PropertyType.OneOf
      [PropertyType.Ref "a", PropertyType.Ref "b"]) ∧
    parseType "\x7bk:v \x7d" = none :=
  ⟨rfl, rfl⟩

/-- Claim C5, amended: whitespace (spaces and newlines) is skippable
    around the union separator, after the dictionary's opening brace and
    around its colon; it is not skippable before the dictionary's closing
    brace, inside array brackets, or at the ends of the expression. -/
theorem C5_amended :
    parseType "a | b" = some (PropertyType.OneOf
      [PropertyType.Ref "a", PropertyType.Ref "b"]) ∧
    parseType "a|\nb" = some (PropertyType.OneOf
      [PropertyType.Ref "a", PropertyType.Ref "b"]) ∧
    parseType "\x7b k : v\x7d" = some (PropertyType.OneOf [PropertyType.Dict]) ∧
    parseType "\x7bk:v \x7d" = none ∧
    parseType "[ a ]" = none ∧
    parseType "[a ]" = none ∧
    parseType " a" = none ∧
    parseType "a " = none :=
  ⟨rfl, rfl, rfl, rfl, rfl, rfl, rfl, rfl⟩

/-- Claim C6: schema-name sanitization replaces each backtick, hyphen and
    space with an underscore, collapses double underscores in one single
    non-repeated pass, and strips leading underscores; the claimed name
    yields exactly My_Schema_Name, and the input a- -b shows the collapse
    is a single pass (a fixpoint collapse would give a_b, the code gives
    a__b); the walker applies the pipeline to the trimmed rendered
    argument 0. -/
theorem C6_sanitization :
    sanitize "My--Schema \x60Name" = "My_Schema_Name" ∧
    sanitize "a- -b" = "a__b" ∧
    toJsonschemas 10 [.Fn "schema" [[.Text "My--Schema \x60Name"], []]] = some
      [{ schema_name := "My_Schema_Name", properties := [],
         is_group_member := false, group_members := [] }] :=
  ⟨rfl, rfl, rfl⟩

/-- Claim C7, counterexample: in `docNested` the emitted record for `g1`
    has non-empty `group_members` and non-empty `properties` — the
    enclosing schema `p` merged its own attribute into `g1` after `g1`'s
    record had been finalised with empty properties. -/
theorem C7_counterexample :
    toJsonschemas 20 docNested = some [pRecN, g1RecN, g2RecN] ∧
    g1RecN.group_members = ["g2"] ∧
    g1RecN.properties.length ≠ 0 :=
  ⟨rfl, rfl, by decide⟩

/-- Claim C7, amended: every emitted record that is not flagged
    `is_group_member` satisfies the invariant (non-empty group_members
    implies empty properties); a record flagged `is_group_member`
    satisfies it at construction but can later receive properties from an
    enclosing call's group-member merge, so the invariant can fail for it
    in the final output; and the record a schema call pushes carries
    `is_group_member` true exactly when the call is named schema-group. -/
theorem C7_amended :
    (∀ (f : Nat) (nodes : List LitNode) (out : List Schema),
      collectSchemas f nodes = some out →
      ∀ r ∈ out, r.is_group_member = false → r.group_members ≠ [] →
        r.properties = []) ∧
    (∀ (cs : List LitNode → Option (List Schema))
       (ca : List LitNode → Option (List ((String × Property) × List Schema)))
       (rn : LitNode → Option String)
       (name : String) (args : List (List LitNode)) (r : Schema) (rest : List Schema),
      (name = "schema" ∨ name = "schema-group") →
      collectNodeWith cs ca rn (.Fn name args) = some (r :: rest) →
      r.is_group_member = (name == "schema-group")) := by
  constructor
  · intro f nodes out h
    exact (collect_inv f).1 nodes out h
  · intro cs ca rn name args r rest hname h
    have hcond : (name == "schema" || name == "schema-group") = true := by
      rcases hname with h1 | h1 <;> subst h1 <;> decide
    simp only [collectNodeWith] at h
    rw [if_pos hcond] at h
    exact schemaCallWith_head_flag cs ca rn name args r rest h

/-- Claim C7, witness: the invariant applied to the record of `p` in the
    nested document. -/
theorem C7_witness : pRecN.properties = [] :=
  C7_amended.1 20 docNested [pRecN, g1RecN, g2RecN] rfl pRecN
    (List.mem_cons_self _ _) rfl (by decide)

/-- Claim C8, counterexample: on an input whose shortest line consists of
    a single space, the specified minimum (over all non-empty lines) is
    1, but the code excludes all-space lines from the minimum and strips
    2; the specified pipeline and the implemented one disagree. -/
theorem C8_counterexample :
    trimCodeblock " \n  foo" = "    \n    foo" ∧
    specTrimCodeblock " \n  foo" = "    \n     foo" ∧
    specTrimCodeblock " \n  foo" ≠ trimCodeblock " \n  foo" :=
  ⟨rfl, rfl, by decide⟩

/-- Claim C8, amended: the minimum is taken over the lines that contain a
    non-space character (all-space lines contribute nothing); with that
    minimum, stripping lines at least that long and fully trimming the
    others, prefixing four spaces and rejoining with newlines is
    extensionally the implemented function, and on the section 8 input
    the minimum is 2 and relative indentation is preserved. -/
theorem C8_amended :
    (∀ s : String, amendedTrimCodeblock s = trimCodeblock s) ∧
    trimCodeblock "  foo\n    bar\n" = "    foo\n      bar\n    " :=
  ⟨amendedTrimCodeblock_eq, rfl⟩

/-- Claim C8, witness: the amended pipeline applied to the section 8
    input. -/
theorem C8_witness :
    amendedTrimCodeblock "  foo\n    bar\n" = trimCodeblock "  foo\n    bar\n" :=
  C8_amended.1 "  foo\n    bar\n"

/-- Claim C9, counterexample: a schema-group call with only two argument
    lists aborts the conversion although the document contains no type
    expression and no attribute call — the claimed "exactly when" list of
    fatal conditions is incomplete. -/
theorem C9_counterexample :
    toJsonschemas 10 [.Fn "schema-group" [[.Text "n"], [.Text "z"]]] = none :=
  rfl

/-- Claim C9, amended: a malformed type expression and an attribute call
    with fewer than three arguments are fatal, and a reference call of
    unsupported arity is recoverable (it renders as the empty string and
    the conversion proceeds), but they are not the only fatal conditions:
    schema calls (and rendered markup calls) with too few arguments are
    fatal as well, as claim C10 records. -/
theorem C9_amended :
    toJsonschemas 10 [.Fn "schema" [[.Text "s"],
      [.Fn "required-attribute" [[.Text "x"], [.Text "t"]]]]] = none ∧
    toJsonschemas 10 [.Fn "schema" [[.Text "s"],
      [.Fn "required-attribute" [[.Text "x"], [.Text "[a"], [.Text "d"]]]]] = none ∧
    textToMarkdown 10 [.Fn "reference" [[.Text "a"], [.Text "b"], [.Text "c"]]] =
      some "" ∧
    toJsonschemas 10 [.Fn "schema" [[.Text "s"],
      [.Fn "required-attribute" [[.Text "x"], [.Text "t"],
        [.Fn "reference" [[.Text "a"], [.Text "b"], [.Text "c"]]]]]]] = some
      [{ schema_name := "s",
         properties := [("x", ⟨true, "", .OneOf [.Ref "t"], false⟩)],
         is_group_member := false, group_members := [] }] :=
  ⟨rfl, rfl, rfl, rfl⟩

/-- Claim C10: the walker unconditionally indexes argument lists 0 and 1
    of a schema call (0 and 2 of a schema-group call), so a schema call
    with fewer than two argument lists, or a schema-group call with fewer
    than three, aborts (panics), while with enough arguments the walk
    succeeds. -/
theorem C10_walker_arity :
    toJsonschemas 10 [.Fn "schema" [[.Text "n"]]] = none ∧
    toJsonschemas 10 [.Fn "schema-group" [[.Text "n"], []]] = none ∧
    toJsonschemas 10 [.Fn "schema" [[.Text "n"], []]] = some
      [{ schema_name := "n", properties := [], is_group_member := false,
         group_members := [] }] ∧
    toJsonschemas 10 [.Fn "schema-group" [[.Text "n"], [], []]] = some
      [{ schema_name := "n", properties := [], is_group_member := true,
         group_members := [] }] :=
  ⟨rfl, rfl, rfl, rfl⟩
